import Mathlib

/-!
Shallow embedding of the harmonic-analysis engine
(`music_theory_engine.py`, `reharmonization_service.py`).

Python strings are modelled as Lean `String` / `List Char`; Python's
`ValueError` (raised both by the parser on a malformed symbol and by
`list.index` when a note is absent from the chromatic alphabet) is modelled
by the explicit error type `EngineError`, so fallible code returns
`Except EngineError _`.  Python's `%` on integers agrees with Lean's `%`
on `Int` for a positive modulus (both yield a non-negative representative),
so modular index arithmetic is embedded directly over `Int`.
-/

/-- ASCII lower-casing of a single character, the behaviour of Python's
`str.lower` on the ASCII inputs the engine deals with. -/
def lowerChar (c : Char) : Char :=
  if 65 ≤ c.toNat ∧ c.toNat ≤ 90 then Char.ofNat (c.toNat + 32) else c

/-- ASCII upper-casing of a single character, the behaviour of Python's
`str.upper` on the ASCII inputs the engine deals with (the degree mark `°`
is outside the ASCII letter range and is left unchanged, as in Python). -/
def upperChar (c : Char) : Char :=
  if 97 ≤ c.toNat ∧ c.toNat ≤ 122 then Char.ofNat (c.toNat - 32) else c

/-- Whitespace characters stripped by Python's `str.strip()`. -/
def isPyWhitespace (c : Char) : Bool :=
  c = ' ' || c = '\t' || c = '\n' || c = '\r' || c = '\x0b' || c = '\x0c'

/-- `chord_symbol.strip()`. -/
def trimChars (cs : List Char) : List Char :=
  ((cs.dropWhile isPyWhitespace).reverse.dropWhile isPyWhitespace).reverse

/-- Is the needle a prefix of the haystack? -/
def isPrefList : List Char → List Char → Bool
  | [], _ => true
  | x :: xs, ys =>
    match ys with
    | [] => false
    | y :: yt => x = y && isPrefList xs yt

/-- Python's substring test `needle in haystack`. -/
def hasSubstr (n : List Char) : List Char → Bool
  | [] => isPrefList n []
  | c :: t => isPrefList n (c :: t) || hasSubstr n (t)

/-- `[A-G]` of the chord regex. -/
def isNoteLetter (c : Char) : Bool := 'A' ≤ c && c ≤ 'G'

/-- `[#b]` of the chord regex. -/
def isAccidental (c : Char) : Bool := c = '#' || c = 'b'

/-- The `ChordQuality` enum of `music_theory_engine.py`. -/
inductive ChordQuality where
  | major
  | minor
  | diminished
  | augmented
  | dominant
  | major7
  | minor7
  | half_diminished
  | diminished7
  | suspended4
  | suspended2
deriving DecidableEq, Repr

/-- The `Function` enum of `music_theory_engine.py` (named
`HarmonicFunction` here because `Function` is taken by the ambient
library). -/
inductive HarmonicFunction where
  | tonic
  | subdominant
  | dominant
  | secondary_dominant
  | diminished
  | substitute
deriving DecidableEq, Repr

/-- The string payloads of the `Function` enum members (`.value` in
Python); these strings are what the analysis records carry. -/
def HarmonicFunction.value : HarmonicFunction → String
  | .tonic => "T"
  | .subdominant => "S"
  | .dominant => "D"
  | .secondary_dominant => "V/x"
  | .diminished => "dim"
  | .substitute => "sub"

/-- The `Chord` dataclass.  `function` and `roman_numeral` default to
`None` and are filled in by `analyze_chord_progression`. -/
structure Chord where
  root : String
  quality : ChordQuality
  extensions : List String := []
  bass : Option String := none
  function : Option HarmonicFunction := none
  roman_numeral : Option String := none
deriving DecidableEq, Repr

/-- Python raises `ValueError` in two distinct places: `parse_chord` on a
symbol that fails the chord regex (`invalidChord`, message
"Chord symbol inválido: ..."), and `list.index` when a note name is not in
`chromatic_notes` (`notInList`, message "... is not in list"). -/
inductive EngineError where
  | invalidChord (symbol : String)
  | notInList (item : String)
deriving DecidableEq, Repr

deriving instance DecidableEq for Except

/-- `self.chromatic_notes`: the fixed sharp-based chromatic alphabet
(one flat 12-entry list literal in the source; assembled from two halves
here, which appends to the same list). -/
def chromatic_notes : List String :=
  ["C", "C#", "D", "D#", "E", "F"] ++ ["F#", "G", "G#", "A", "A#", "B"]

/-- Index of the first occurrence of `x`, or `none` (`list.index` minus
the exception). -/
def findIdx (x : String) : List String → Option Nat
  | [] => none
  | y :: ys => if y = x then some 0 else (findIdx x ys).map (· + 1)

/-- `self.chromatic_notes.index(x)`: raises `notInList` when absent. -/
def noteIndex (x : String) : Except EngineError Nat :=
  match findIdx x chromatic_notes with
  | some i => .ok i
  | none => .error (.notInList x)

/-- `self.harmonic_functions`: the dict literal as written in the source;
note the mixed-case keys (`"ii"`, `"iii"`, `"vi"`, `"vii°"`). -/
def harmonic_functions : List (String × HarmonicFunction) :=
  [("I", .tonic), ("ii", .subdominant), ("iii", .tonic),
   ("IV", .subdominant), ("V", .dominant), ("vi", .tonic),
   ("vii°", .dominant)]

/-- `dict.get(key, default)` over an association list. -/
def dictGetFn : List (String × HarmonicFunction) → String → HarmonicFunction → HarmonicFunction
  | [], _, dflt => dflt
  | (k, v) :: rest, key, dflt => if k = key then v else dictGetFn rest key dflt

/-- `_determine_chord_quality`: lower-case the suffix, then an ordered
chain of substring tests.  The second disjunct of the `maj7` test
(`'M7' in quality_str`) is kept verbatim from the source even though it
can never fire after the lower-casing. -/
def determine_chord_quality (quality_str : List Char) : ChordQuality :=
  let s := quality_str.map lowerChar
  if hasSubstr "m7".data s then .minor7
  else if hasSubstr "maj7".data s || hasSubstr "M7".data s then .major7
  else if hasSubstr "7".data s then .dominant
  else if hasSubstr "m".data s then .minor
  else if hasSubstr "dim".data s then .diminished
  else if hasSubstr "aug".data s || hasSubstr "+".data s then .augmented
  else if hasSubstr "sus4".data s then .suspended4
  else if hasSubstr "sus2".data s then .suspended2
  else .major

/-- `_parse_extensions`: `re.findall(r'(9|11|13|#11|b13)', quality_str)` —
left-to-right non-overlapping matches, alternatives tried in the
pattern's order at each position. -/
def findTensions : List Char → List String
  | [] => []
  | '9' :: t => "9" :: findTensions t
  | '1' :: '1' :: t => "11" :: findTensions t
  | '1' :: '3' :: t => "13" :: findTensions t
  | '#' :: '1' :: '1' :: t => "#11" :: findTensions t
  | 'b' :: '1' :: '3' :: t => "b13" :: findTensions t
  | _ :: t => findTensions t

/-- Split a character list on every `/`. -/
def splitSlashes : List Char → List (List Char)
  | [] => [[]]
  | '/' :: t => [] :: splitSlashes t
  | c :: t =>
    match splitSlashes t with
    | [] => [[c]]
    | p :: ps => (c :: p) :: ps

/-- Does a character list match `[A-G][#b]?` exactly (the slash-bass
group of the chord regex, and also the shape of every root the regex can
produce)? -/
def validBassChars : List Char → Bool
  | [x] => isNoteLetter x
  | [x, y] => isNoteLetter x && isAccidental y
  | _ => false

/-- Take the optional `[#b]?` accidental off the front of the text after
the root letter. -/
def splitAccidental : List Char → Option Char × List Char
  | a :: t => if isAccidental a then (some a, t) else (none, a :: t)
  | [] => (none, [])

/-- `parse_chord`: match the trimmed symbol against
`^([A-G][#b]?)([^/]*?)(?:/([A-G][#b]?))?$` and build the `Chord`.
Because the quality group excludes `/` and the bass group must consume
the remainder exactly, the regex is equivalent to: take the leading
letter and optional accidental as the root, then split the rest on `/`;
no slash means the rest is the quality-suffix, one slash means the part
after it must match `[A-G][#b]?` exactly, more than one slash never
matches. -/
def parse_chord (chord_symbol : String) : Except EngineError Chord :=
  match trimChars chord_symbol.data with
  | [] => .error (.invalidChord chord_symbol)
  | c :: rest =>
    if isNoteLetter c then
      match splitAccidental rest with
      | (oa, rest2) =>
        let root := String.mk (c :: oa.toList)
        match splitSlashes rest2 with
        | [q] =>
          .ok { root := root, quality := determine_chord_quality q,
                extensions := findTensions q, bass := none }
        | [q, b] =>
          if validBassChars b then
            .ok { root := root, quality := determine_chord_quality q,
                  extensions := findTensions q, bass := some (String.mk b) }
          else .error (.invalidChord chord_symbol)
        | _ => .error (.invalidChord chord_symbol)
    else .error (.invalidChord chord_symbol)

/-- The `roman_map` dict of `_get_roman_numeral`, with its `.get`
default `'bII'` for altered degrees. -/
def roman_map_get (interval : Int) : String :=
  if interval = 0 then "I"
  else if interval = 2 then "II"
  else if interval = 4 then "III"
  else if interval = 5 then "IV"
  else if interval = 7 then "V"
  else if interval = 9 then "VI"
  else if interval = 11 then "VII"
  else "bII"

/-- `_get_roman_numeral`: interval arithmetic over the chromatic alphabet
followed by the case adjustment for minor and diminished qualities.  The
two `list.index` calls can raise, in source order (key first). -/
def get_roman_numeral (chord : Chord) (key : String) : Except EngineError String := do
  let key_index ← noteIndex key
  let chord_index ← noteIndex chord.root
  let interval : Int := ((chord_index : Int) - (key_index : Int)) % 12
  let base_roman := roman_map_get interval
  if chord.quality = .minor ∨ chord.quality = .minor7 then
    pure (String.mk (base_roman.data.map lowerChar))
  else if chord.quality = .diminished then
    pure (String.mk (base_roman.data.map lowerChar) ++ "°")
  else
    pure base_roman

/-- `_determine_function`: strip every `°`, upper-case, then
`harmonic_functions.get(base_roman, Function.SUBSTITUTE)`. -/
def determine_function (roman_numeral : String) : HarmonicFunction :=
  let base_roman := String.mk ((roman_numeral.data.filter (· ≠ '°')).map upperChar)
  dictGetFn harmonic_functions base_roman .substitute

/-- `_get_available_tensions`: pure lookup keyed by the chord quality
(the `key` argument is accepted and ignored, as in the source). -/
def get_available_tensions (chord : Chord) (key : String) : List String :=
  match chord.quality with
  | .major7 => ["9", "11", "13"]
  | .minor7 => ["9", "11", "13"]
  | .dominant => ["9", "11", "13", "b13", "#11"]
  | .half_diminished => ["9", "11", "b13"]
  | _ => []

/-- `_recommend_scales`: pure lookup keyed by the chord quality, with the
`['chromatic']` fallback. -/
def recommend_scales (chord : Chord) (key : String) : List String :=
  match chord.quality with
  | .major7 => ["ionian", "lydian"]
  | .minor7 => ["dorian", "aeolian"]
  | .dominant => ["mixolydian", "altered"]
  | .half_diminished => ["locrian"]
  | _ => ["chromatic"]

/-- One per-chord record of `analyze_chord_progression`; the `function`
field carries `function.value` (a string) exactly like the Python dict,
while the enriched `chord` also carries the enum member. -/
structure AnalysisEntry where
  chord_symbol : String
  chord : Chord
  roman_numeral : String
  function : String
  tensions_available : List String
  scales_recommended : List String
deriving DecidableEq, Repr

/-- The loop body of `analyze_chord_progression` for one symbol. -/
def analyzeOne (key : String) (chord_symbol : String) : Except EngineError AnalysisEntry := do
  let chord ← parse_chord chord_symbol
  let roman_numeral ← get_roman_numeral chord key
  let fn := determine_function roman_numeral
  let chord := { chord with roman_numeral := some roman_numeral, function := some fn }
  pure { chord_symbol := chord_symbol, chord := chord,
         roman_numeral := roman_numeral, function := fn.value,
         tensions_available := get_available_tensions chord key,
         scales_recommended := recommend_scales chord key }

/-- The `for chord_symbol in chord_symbols` loop of
`analyze_chord_progression`, building the record list in input order;
the first raised error aborts the whole loop. -/
def analysisLoop (key : String) : List String → Except EngineError (List AnalysisEntry)
  | [] => .ok []
  | s :: rest => do
    let e ← analyzeOne key s
    let tail ← analysisLoop key rest
    pure (e :: tail)

/-- `analyze_chord_progression`: the symbols in order; the first raised
error aborts the whole call (no partial list is ever produced). -/
def analyze_chord_progression (chord_symbols : List String) (key : String) :
    Except EngineError (List AnalysisEntry) :=
  analysisLoop key chord_symbols

/-- `suggest_chord_substitutions`: the tritone substitution for dominant
quality, the `root6`/`rootmaj9` tonic substitutes for a major chord
already resolved to tonic function, nothing otherwise. -/
def suggest_chord_substitutions (chord : Chord) (key : String) :
    Except EngineError (List String) :=
  if chord.quality = .dominant then do
    let root_index ← noteIndex chord.root
    let tritone_sub := chromatic_notes.getD ((root_index + 6) % 12) ""
    pure [tritone_sub ++ "7"]
  else if chord.function = some .tonic then
    if chord.quality = .major then
      pure [chord.root ++ "6", chord.root ++ "maj9"]
    else pure []
  else pure []

/-- `ReharmonizationService._get_tritone_substitution`: root six semitones
up (mod 12) in the chromatic alphabet, suffixed `7`. -/
def get_tritone_substitution (chord : Chord) : Except EngineError String := do
  let root_index ← noteIndex chord.root
  let tritone_root := chromatic_notes.getD ((root_index + 6) % 12) ""
  pure (tritone_root ++ "7")

/-- The dict returned by `validate_voice_leading`. -/
structure VoiceLeadingReport where
  is_valid : Bool
  issues : List String
  suggestions : List String
deriving DecidableEq, Repr

/-- The loop of `validate_voice_leading` over adjacent pairs: parse both
chords, look up both roots, flag the pair when the raw absolute index
difference exceeds 6. -/
def vlLoop : List String → Except EngineError (List String × List String)
  | a :: b :: rest => do
    let current ← parse_chord a
    let next_chord ← parse_chord b
    let current_root ← noteIndex current.root
    let next_root ← noteIndex next_chord.root
    let interval := ((next_root : Int) - (current_root : Int)).natAbs
    let tail ← vlLoop (b :: rest)
    if interval > 6 then
      pure (("Movimento de fundamental muito amplo: " ++ a ++ " → " ++ b) :: tail.1,
            "Considere usar inversão ou acorde de passagem" :: tail.2)
    else
      pure tail
  | _ => pure ([], [])

/-- `validate_voice_leading`: assemble the report. -/
def validate_voice_leading (progression : List String) :
    Except EngineError VoiceLeadingReport := do
  let r ← vlLoop progression
  pure { is_valid := r.1.length == 0, issues := r.1, suggestions := r.2 }

/-!
Specification-side definitions.  These are written from the spec's (or a
claim's) words, to be compared with the source-derived definitions
above, plus decidable helper predicates used to state the theorems.
-/

/-- Is an `Except` result a success? -/
def isOkE {ε α : Type} : Except ε α → Bool
  | .ok _ => true
  | .error _ => false

/-- The root of a successfully parsed symbol, `none` when parsing fails. -/
def rootOfParse (s : String) : Option String :=
  match parse_chord s with
  | .ok c => some c.root
  | .error _ => none

/-- The quality of a successfully parsed symbol, `none` when parsing
fails. -/
def qualityOfParse (s : String) : Option ChordQuality :=
  match parse_chord s with
  | .ok c => some c.quality
  | .error _ => none

/-- Does the symbol parse, with a root that is in the sharp-based
chromatic alphabet? -/
def parsedRootInNotes (s : String) : Bool :=
  match parse_chord s with
  | .ok c => chromatic_notes.contains c.root
  | .error _ => false

/-- Modelled from the claim's words (not from the source): the quality
classifier as claim C3 orders it — `m7`, then plain `m`, then `maj7`,
then `7`, then `dim`, then `aug`/`+`, then `sus4`, then `sus2`,
defaulting to major. -/
def claimOrderQuality (quality_str : List Char) : ChordQuality :=
  let s := quality_str.map lowerChar
  if hasSubstr "m7".data s then .minor7
  else if hasSubstr "m".data s then .minor
  else if hasSubstr "maj7".data s then .major7
  else if hasSubstr "7".data s then .dominant
  else if hasSubstr "dim".data s then .diminished
  else if hasSubstr "aug".data s || hasSubstr "+".data s then .augmented
  else if hasSubstr "sus4".data s then .suspended4
  else if hasSubstr "sus2".data s then .suspended2
  else .major

/-- The quality-precedence rules as an ordered table of
(substring patterns, quality) pairs, in the order the source actually
checks them: `m7`, `maj7` (or the dead post-lower-casing `M7`), `7`,
`m`, `dim`, `aug`/`+`, `sus4`, `sus2`. -/
def quality_precedence_table : List (List (List Char) × ChordQuality) :=
  [(["m7".data], .minor7),
   (["maj7".data, "M7".data], .major7),
   (["7".data], .dominant),
   (["m".data], .minor),
   (["dim".data], .diminished),
   (["aug".data, "+".data], .augmented),
   (["sus4".data], .suspended4),
   (["sus2".data], .suspended2)]

/-- First-match evaluation of an ordered precedence table, defaulting to
major. -/
def classifyByTable : List (List (List Char) × ChordQuality) → List Char → ChordQuality
  | [], _ => .major
  | (pats, q) :: rest, s =>
    if pats.any (fun p => hasSubstr p s) then q else classifyByTable rest s

/-- All 21 pitch-class roots of the chord grammar: an uppercase letter
A–G optionally followed by `#` or `b`. -/
def validRoots : List String :=
  ["A", "A#", "Ab", "B", "B#", "Bb", "C", "C#", "Cb", "D", "D#", "Db",
   "E", "E#", "Eb", "F", "F#", "Fb", "G", "G#", "Gb"]

/-- The supported quality suffixes named by claim C8. -/
def supported_qualities : List String :=
  ["", "m", "m7", "maj7", "7", "dim", "aug", "+", "sus4", "sus2"]

/-- Is an adjacent pair flagged by the voice-leading rule?  Recomputed
from the parsed roots: raw absolute chromatic-index difference
exceeding 6. -/
def pairFlagged (a b : String) : Bool :=
  match parse_chord a, parse_chord b with
  | .ok ca, .ok cb =>
    match findIdx ca.root chromatic_notes, findIdx cb.root chromatic_notes with
    | some i, some j => ((j : Int) - (i : Int)).natAbs > 6
    | _, _ => false
  | _, _ => false

/-- The adjacent pairs of a progression, in order. -/
def adjacentPairs (l : List String) : List (String × String) := l.zip l.tail

/-- The issue messages the voice-leading checker should emit: one per
flagged adjacent pair, in order. -/
def flagged_messages (prog : List String) : List String :=
  ((adjacentPairs prog).filter (fun p => pairFlagged p.1 p.2)).map
    (fun p => "Movimento de fundamental muito amplo: " ++ p.1 ++ " → " ++ p.2)

/-!
Theorems.
-/

/-- C1: the claimed function table {I→Tonic, II→Subdominant, III→Tonic,
IV→Subdominant, V→Dominant, VI→Tonic, VII→Dominant} is not what the code
computes: `_determine_function` upper-cases the numeral before the
lookup, but the dict keys `"ii"`, `"iii"`, `"vi"`, `"vii°"` are
lower-case, so those four entries can never match and the degrees II,
III, VI, VII all fall to Substitute.  At the claim's own example,
`resolve(parse("Dm"), "C")` yields roman numeral `"ii"` but function
Substitute, not Subdominant. -/
theorem resolve_Dm_in_C_yields_substitute :
    (do
      let c ← parse_chord "Dm"
      let r ← get_roman_numeral c "C"
      pure (r, determine_function r) : Except EngineError (String × HarmonicFunction)) =
      .ok ("ii", .substitute) ∧
    determine_function "ii" = .substitute ∧
    dictGetFn harmonic_functions "II" .substitute = .substitute ∧
    determine_function "I" = .tonic ∧
    determine_function "IV" = .subdominant ∧
    determine_function "V" = .dominant :=
  ⟨rfl, rfl, rfl, rfl, rfl, rfl⟩

/-- C2: `analyze(["Dm7","G7","CM7"], "C")` does not produce the claimed
ii–V–I pattern [Subdominant, Dominant, Tonic]: the Dm7 record carries
`"sub"` (Substitute), because the upper-cased lookup key `"II"` misses
the lower-case dict key `"ii"`.  (The CM7 record is Tonic, though via
minor-seventh quality and numeral `"i"`, since the suffix is
lower-cased to `"m7"`.) -/
theorem analyze_ii_V_I_functions :
    (analyze_chord_progression ["Dm7", "G7", "CM7"] "C").map
      (fun l => l.map (fun e => e.function)) = .ok ["sub", "D", "T"] ∧
    (analyze_chord_progression ["Dm7", "G7", "CM7"] "C").map
      (fun l => l.map (fun e => e.chord.function)) =
      .ok [some .substitute, some .dominant, some .tonic] :=
  ⟨rfl, rfl⟩

/-- C3 counterexample: the claim's precedence order (`m7`, then plain
`m`, then `maj7`, ...) classifies the suffix `"maj7"` as minor (it
contains `"m"`), but the code classifies it as major-seventh, because
the code checks `maj7` before plain `m`. -/
theorem claim_order_misclassifies_maj7 :
    determine_chord_quality "maj7".data = .major7 ∧
    claimOrderQuality "maj7".data = .minor ∧
    qualityOfParse "Cmaj7" = some .major7 :=
  ⟨rfl, rfl, rfl⟩

/-- C3 amended: the classifier lower-cases the suffix and then applies
ordered substring precedence `m7`, `maj7` (the `M7` alternative being
dead after lower-casing), `7`, `m`, `dim`, `aug`/`+`, `sus4`, `sus2`,
defaulting to major — i.e. it agrees with first-match evaluation of that
ordered table; in particular `parse("Cm7")` yields minor-seventh, not
minor. -/
theorem quality_precedence_order :
    (∀ s : List Char,
      determine_chord_quality s = classifyByTable quality_precedence_table (s.map lowerChar)) ∧
    qualityOfParse "Cm7" = some .minor7 := by
  constructor
  · intro s
    simp only [determine_chord_quality, classifyByTable, quality_precedence_table,
      List.any_cons, List.any_nil, Bool.or_false]
  · rfl

/-- C4 counterexample: `parse("Db")` succeeds with root `"Db"`, which is
not a member of the sharp-based chromatic alphabet, and the Function
Resolver then raises (`list.index`) on that parser output instead of
returning a value. -/
theorem parse_Db_root_outside_alphabet :
    parse_chord "Db" = .ok { root := "Db", quality := .major } ∧
    chromatic_notes.contains "Db" = false ∧
    (do
      let c ← parse_chord "Db"
      get_roman_numeral c "C" : Except EngineError String) = .error (.notInList "Db") :=
  ⟨rfl, rfl, rfl⟩

/-- C5 counterexample: `"H7"` fails the chord grammar, yet
`analyze(["Db","H7"], "C")` does not raise the parser's
`InvalidChordSymbol`: it raises the alphabet-lookup error on the
grammar-valid `"Db"` first, so the claimed "raises InvalidChordSymbol
iff some element fails the grammar" is false in both directions. -/
theorem analyze_flat_root_masks_invalid_symbol :
    parse_chord "H7" = .error (.invalidChord "H7") ∧
    analyze_chord_progression ["Db", "H7"] "C" = .error (.notInList "Db") :=
  ⟨rfl, rfl⟩

/-- C6 counterexample: `check(["C","Gb"])` does not report valid — both
symbols parse, but `"Gb"` is not in the sharp-based alphabet, so the
checker raises the `list.index` error instead of returning a report. -/
theorem voice_leading_C_Gb_raises :
    validate_voice_leading ["C", "Gb"] = .error (.notInList "Gb") := rfl

/-!
Helper lemmas shared by the theorems below.
-/

theorem exceptBind_ok {ε α β : Type} (a : α) (f : α → Except ε β) :
    (Except.ok a >>= f : Except ε β) = f a := rfl

theorem exceptBind_error {ε α β : Type} (e : ε) (f : α → Except ε β) :
    (Except.error e >>= f : Except ε β) = .error e := rfl

theorem findIdx_isSome_of_mem {x : String} :
    ∀ {l : List String}, x ∈ l → (findIdx x l).isSome = true := by
  intro l
  induction l with
  | nil => intro h; cases h
  | cons y ys ih =>
    intro h
    simp only [findIdx]
    split
    · rfl
    · rename_i hy
      rcases List.mem_cons.mp h with h1 | h2
      · exact absurd h1.symm hy
      · cases hfi : findIdx x ys with
        | none => rw [hfi] at ih; cases ih h2
        | some j => simp [hfi]

theorem noteIndex_ok_of_mem (x : String) (hx : x ∈ chromatic_notes) :
    ∃ i, noteIndex x = .ok i := by
  have h := findIdx_isSome_of_mem hx
  cases hfi : findIdx x chromatic_notes with
  | none => rw [hfi] at h; cases h
  | some i => exact ⟨i, by simp [noteIndex, hfi]⟩

theorem isPrefList_map (f : Char → Char) :
    ∀ n h : List Char, isPrefList n h = true → isPrefList (n.map f) (h.map f) = true := by
  intro n
  induction n with
  | nil => intro h _; rfl
  | cons a as ih =>
    intro h hp
    cases h with
    | nil => simp [isPrefList] at hp
    | cons b bs =>
      simp only [isPrefList, Bool.and_eq_true, decide_eq_true_eq] at hp
      simp only [List.map_cons, isPrefList, Bool.and_eq_true, decide_eq_true_eq]
      exact ⟨by rw [hp.1], ih bs hp.2⟩

theorem hasSubstr_map (f : Char → Char) :
    ∀ n h : List Char, hasSubstr n h = true → hasSubstr (n.map f) (h.map f) = true := by
  intro n h
  induction h with
  | nil =>
    intro hp
    simp only [hasSubstr] at hp ⊢
    exact isPrefList_map f n [] hp
  | cons c t ih =>
    intro hp
    simp only [hasSubstr, List.map_cons, Bool.or_eq_true] at hp ⊢
    cases hp with
    | inl h1 =>
      have := isPrefList_map f n (c :: t) h1
      simp only [List.map_cons] at this
      exact Or.inl this
    | inr h2 => exact Or.inr (ih h2)

/-- C7: a tritone-substitution candidate is proposed only for
dominant-seventh quality — for a dominant chord the substitution list is
exactly the tritone candidate (the same string
`ReharmonizationService._get_tritone_substitution` computes), for any
other quality the list is empty or the tonic substitutes
`root6`/`rootmaj9`; and over the chromatic alphabet the tritone root map
`(r + 6) mod 12` is involutive: the substitute of the substitute is the
original root. -/
theorem tritone_substitution_props :
    (∀ (c : Chord) (k : String) (t : String), c.quality = .dominant →
      get_tritone_substitution c = .ok t →
      suggest_chord_substitutions c k = .ok [t]) ∧
    (∀ (c : Chord) (k : String) (l : List String), c.quality ≠ .dominant →
      suggest_chord_substitutions c k = .ok l →
      l = [] ∨ l = [c.root ++ "6", c.root ++ "maj9"]) ∧
    (∀ n ∈ chromatic_notes, ∃ m ∈ chromatic_notes,
      get_tritone_substitution { root := n, quality := .dominant } = .ok (m ++ "7") ∧
      get_tritone_substitution { root := m, quality := .dominant } = .ok (n ++ "7")) := by
  refine ⟨?_, ?_, ?_⟩
  · intro c k t hq ht
    simp only [get_tritone_substitution] at ht
    simp only [suggest_chord_substitutions, hq, if_true, reduceIte]
    cases hni : noteIndex c.root with
    | error e => rw [hni, exceptBind_error] at ht; cases ht
    | ok i =>
      rw [hni, exceptBind_ok] at ht
      rw [exceptBind_ok]
      injection ht with ht'
      rw [← ht']
      rfl
  · intro c k l hq hl
    simp only [suggest_chord_substitutions, hq, if_false, reduceIte] at hl
    by_cases hf : c.function = some .tonic
    · simp only [hf, reduceIte] at hl
      by_cases hm : c.quality = .major
      · simp only [hm, reduceIte] at hl
        injection hl with hl'
        exact Or.inr hl'.symm
      · simp only [hm, reduceIte] at hl
        injection hl with hl'
        exact Or.inl hl'.symm
    · simp only [hf, reduceIte] at hl
      injection hl with hl'
      exact Or.inl hl'.symm
  · decide

theorem tritone_substitution_props_witness :
    suggest_chord_substitutions { root := "G", quality := .dominant } "C" = .ok ["C#7"] :=
  tritone_substitution_props.1 { root := "G", quality := .dominant } "C" "C#7" rfl rfl

/-- C8: for every valid pitch-class root (letter A–G with optional `#`
or `b`) and every supported quality suffix, parsing their concatenation
succeeds and preserves the root verbatim. -/
theorem parse_root_preserved :
    ∀ r ∈ validRoots, ∀ q ∈ supported_qualities, rootOfParse (r ++ q) = some r := by
  decide

theorem parse_root_preserved_witness : rootOfParse ("C#" ++ "m7") = some "C#" :=
  parse_root_preserved "C#" (by decide) "m7" (by decide)

/-- C9: the tension and scale advisors are pure lookups keyed by the
chord quality: the four table qualities return their fixed entries in
order, and every other quality returns the empty tension list and the
single-element `["chromatic"]` scale list. -/
theorem tension_scale_lookup (c : Chord) (k : String) :
    (c.quality = .major7 →
      get_available_tensions c k = ["9", "11", "13"] ∧
      recommend_scales c k = ["ionian", "lydian"]) ∧
    (c.quality = .minor7 →
      get_available_tensions c k = ["9", "11", "13"] ∧
      recommend_scales c k = ["dorian", "aeolian"]) ∧
    (c.quality = .dominant →
      get_available_tensions c k = ["9", "11", "13", "b13", "#11"] ∧
      recommend_scales c k = ["mixolydian", "altered"]) ∧
    (c.quality = .half_diminished →
      get_available_tensions c k = ["9", "11", "b13"] ∧
      recommend_scales c k = ["locrian"]) ∧
    (c.quality ≠ .major7 → c.quality ≠ .minor7 → c.quality ≠ .dominant →
      c.quality ≠ .half_diminished →
      get_available_tensions c k = [] ∧ recommend_scales c k = ["chromatic"]) := by
  rcases c with ⟨root, q, exts, bass, fn, rn⟩
  cases q <;> simp [get_available_tensions, recommend_scales]

theorem tension_scale_lookup_witness :
    get_available_tensions { root := "C", quality := .diminished } "C" = [] ∧
    recommend_scales { root := "C", quality := .diminished } "C" = ["chromatic"] :=
  (tension_scale_lookup { root := "C", quality := .diminished } "C").2.2.2.2
    (by decide) (by decide) (by decide) (by decide)

/-- C10: quality classification lower-cases the suffix before substring
matching, so any suffix containing `"M7"` is classified exactly like one
containing `"m7"` — minor-seventh, never major-seventh; in particular
`parse(r + "M7")` yields minor-seventh for every valid root. -/
theorem upper_M7_classified_as_minor7 :
    (∀ qs : List Char, hasSubstr "M7".data qs = true → determine_chord_quality qs = .minor7) ∧
    (∀ r ∈ validRoots, qualityOfParse (r ++ "M7") = some .minor7) := by
  constructor
  · intro qs hq
    have h2 := hasSubstr_map lowerChar "M7".data qs hq
    have e : ("M7".data).map lowerChar = "m7".data := by decide
    rw [e] at h2
    simp [determine_chord_quality, h2]
  · decide

theorem upper_M7_classified_as_minor7_witness :
    determine_chord_quality "M7".data = .minor7 ∧ qualityOfParse ("C" ++ "M7") = some .minor7 :=
  ⟨upper_M7_classified_as_minor7.1 "M7".data (by decide),
   upper_M7_classified_as_minor7.2 "C" (by decide)⟩

theorem splitAccidental_fst_some {rest : List Char} {a : Char}
    (h : (splitAccidental rest).1 = some a) : isAccidental a = true := by
  cases rest with
  | nil => cases h
  | cons a0 t0 =>
    simp only [splitAccidental] at h
    split at h
    · injection h with h1
      rw [← h1]
      assumption
    · cases h

theorem findIdx_some_mem {x : String} :
    ∀ {l : List String} {j : Nat}, findIdx x l = some j → x ∈ l := by
  intro l
  induction l with
  | nil => intro j h; cases h
  | cons y ys ih =>
    intro j h
    simp only [findIdx] at h
    split at h
    · exact (by rename_i hy; rw [← hy]; exact List.mem_cons_self y ys)
    · cases hj : findIdx x ys with
      | none => rw [hj] at h; cases h
      | some j2 => exact List.mem_cons_of_mem y (ih hj)

theorem mem_of_noteIndex_ok {x : String} {i : Nat} (h : noteIndex x = .ok i) :
    x ∈ chromatic_notes := by
  simp only [noteIndex] at h
  split at h
  · exact findIdx_some_mem (by assumption)
  · cases h

theorem findIdx_of_noteIndex_ok {x : String} {i : Nat} (h : noteIndex x = .ok i) :
    findIdx x chromatic_notes = some i := by
  simp only [noteIndex] at h
  split at h
  · injection h with h2
    rename_i heq
    rw [heq, h2]
  · cases h

theorem noteIndex_error_shape {x : String} {e : EngineError}
    (h : noteIndex x = .error e) : e = .notInList x := by
  simp only [noteIndex] at h
  split at h
  · cases h
  · injection h with h2
    exact h2.symm

theorem parse_chord_error_shape {s : String} {e : EngineError}
    (h : parse_chord s = .error e) : e = .invalidChord s := by
  simp only [parse_chord] at h
  repeat' split at h
  all_goals cases h
  all_goals rfl

theorem parsedRootInNotes_spec {s : String} (h : parsedRootInNotes s = true) :
    ∃ c i, parse_chord s = .ok c ∧ noteIndex c.root = .ok i := by
  unfold parsedRootInNotes at h
  split at h
  · rename_i c hp
    obtain ⟨i, hi⟩ := noteIndex_ok_of_mem c.root (List.elem_iff.mp h)
    exact ⟨c, i, hp, hi⟩
  · cases h

theorem get_roman_numeral_isOk_iff (c : Chord) (k : String) :
    isOkE (get_roman_numeral c k) = true ↔
      (k ∈ chromatic_notes ∧ c.root ∈ chromatic_notes) := by
  constructor
  · intro h
    cases hk : noteIndex k with
    | error e => simp [get_roman_numeral, hk, exceptBind_error, isOkE] at h
    | ok ki =>
      cases hr : noteIndex c.root with
      | error e => simp [get_roman_numeral, hk, hr, exceptBind_ok, exceptBind_error, isOkE] at h
      | ok ri => exact ⟨mem_of_noteIndex_ok hk, mem_of_noteIndex_ok hr⟩
  · rintro ⟨hk, hr⟩
    obtain ⟨ki, hki⟩ := noteIndex_ok_of_mem k hk
    obtain ⟨ri, hri⟩ := noteIndex_ok_of_mem c.root hr
    simp only [get_roman_numeral, hki, hri, exceptBind_ok]
    split
    · rfl
    · split <;> rfl

theorem get_roman_numeral_error_shape {c : Chord} {k : String} {e : EngineError}
    (h : get_roman_numeral c k = .error e) : ∃ x, e = .notInList x := by
  simp only [get_roman_numeral] at h
  cases hk : noteIndex k with
  | error e2 =>
    rw [hk, exceptBind_error] at h
    injection h with h2
    exact ⟨k, h2.symm.trans (noteIndex_error_shape hk)⟩
  | ok ki =>
    rw [hk, exceptBind_ok] at h
    cases hr : noteIndex c.root with
    | error e2 =>
      rw [hr, exceptBind_error] at h
      injection h with h2
      exact ⟨c.root, h2.symm.trans (noteIndex_error_shape hr)⟩
    | ok ri =>
      rw [hr, exceptBind_ok] at h
      split at h
      · cases h
      · split at h <;> cases h

theorem suggest_substitutions_isOk (c : Chord) (k : String)
    (hr : c.root ∈ chromatic_notes) : isOkE (suggest_chord_substitutions c k) = true := by
  by_cases hq : c.quality = .dominant
  · obtain ⟨i, hi⟩ := noteIndex_ok_of_mem c.root hr
    simp [suggest_chord_substitutions, hq, hi, exceptBind_ok, isOkE]
  · simp only [suggest_chord_substitutions, hq, reduceIte]
    split
    · split <;> rfl
    · rfl

theorem vlLoop_isOk : ∀ prog : List String,
    (∀ s ∈ prog, parsedRootInNotes s = true) → isOkE (vlLoop prog) = true := by
  intro prog
  induction prog with
  | nil => intro _; rfl
  | cons a rest ih =>
    cases rest with
    | nil => intro _; rfl
    | cons b rest2 =>
      intro hyp
      obtain ⟨ca, ia, hpa, hia⟩ := parsedRootInNotes_spec (hyp a (by simp))
      obtain ⟨cb, ib, hpb, hib⟩ := parsedRootInNotes_spec (hyp b (by simp))
      have htail := ih (fun s hs => hyp s (List.mem_cons_of_mem a hs))
      simp only [vlLoop, hpa, hpb, hia, hib, exceptBind_ok]
      cases hv : vlLoop (b :: rest2) with
      | error e => rw [hv] at htail; cases htail
      | ok tl =>
        rw [exceptBind_ok]
        split <;> rfl

/-- C4 amended: every root (and bass) a successful parse produces
matches the grammar shape `[A-G][#b]?` — which includes flat spellings
outside the sharp-based 12-entry alphabet — and the downstream
components are total exactly on alphabet roots: the Function Resolver
returns a value iff key and root are alphabet members, and the
Substitution Advisor and Voice-Leading Checker return values whenever
every involved root is an alphabet member.  (The Tension/Scale Advisors
are plain total lookups by construction.) -/
theorem parser_output_totality :
    (∀ (s : String) (c : Chord), parse_chord s = .ok c →
      validBassChars c.root.data = true ∧
      ∀ b, c.bass = some b → validBassChars b.data = true) ∧
    (∀ (c : Chord) (k : String), k ∈ chromatic_notes → c.root ∈ chromatic_notes →
      isOkE (get_roman_numeral c k) = true) ∧
    (∀ (c : Chord) (k : String), c.root ∈ chromatic_notes →
      isOkE (suggest_chord_substitutions c k) = true) ∧
    (∀ prog : List String, (∀ s ∈ prog, parsedRootInNotes s = true) →
      isOkE (validate_voice_leading prog) = true) := by
  refine ⟨?_, ?_, ?_, ?_⟩
  · intro s c h
    simp only [parse_chord] at h
    split at h
    · cases h
    · rename_i c0 rest htrim
      split at h
      · rename_i hlet
        split at h
        · rename_i q hsl
          injection h with h2
          rw [← h2]
          refine ⟨?_, ?_⟩
          · cases hacc : (splitAccidental rest).1 with
            | none => simp [hacc, validBassChars, hlet]
            | some a => simp [hacc, validBassChars, hlet, splitAccidental_fst_some hacc]
          · intro b hb
            cases hb
        · rename_i q b hsl
          split at h
          · rename_i hbass
            injection h with h2
            rw [← h2]
            refine ⟨?_, ?_⟩
            · cases hacc : (splitAccidental rest).1 with
              | none => simp [hacc, validBassChars, hlet]
              | some a => simp [hacc, validBassChars, hlet, splitAccidental_fst_some hacc]
            · intro b2 hb2
              injection hb2 with hb3
              rw [← hb3]
              exact hbass
          · cases h
        · cases h
      · cases h
  · intro c k hk hr
    exact (get_roman_numeral_isOk_iff c k).mpr ⟨hk, hr⟩
  · exact suggest_substitutions_isOk
  · intro prog hyp
    have := vlLoop_isOk prog hyp
    cases hv : vlLoop prog with
    | error e => rw [hv] at this; cases this
    | ok r => simp [validate_voice_leading, hv, exceptBind_ok, isOkE]

theorem parser_output_totality_witness :
    (validBassChars ("C#".data) = true) ∧
    isOkE (get_roman_numeral { root := "D", quality := .minor } "C") = true ∧
    isOkE (suggest_chord_substitutions { root := "G", quality := .dominant } "C") = true ∧
    isOkE (validate_voice_leading ["C", "G"]) = true := by
  refine ⟨?_, ?_, ?_, ?_⟩
  · exact (parser_output_totality.1 "C#m7"
      { root := "C#", quality := .minor7 } rfl).1
  · exact parser_output_totality.2.1 { root := "D", quality := .minor } "C"
      (by decide) (by decide)
  · exact parser_output_totality.2.2.1 { root := "G", quality := .dominant } "C"
      (by decide)
  · exact parser_output_totality.2.2.2 ["C", "G"] (by decide)

theorem analyzeOne_error_shape {k s : String} {e : EngineError}
    (h : analyzeOne k s = .error e) :
    parse_chord s = .error e ∨ ∃ x, e = .notInList x := by
  simp only [analyzeOne] at h
  cases hp : parse_chord s with
  | error ep =>
    rw [hp, exceptBind_error] at h
    injection h with h2
    rw [← h2]
    exact Or.inl rfl
  | ok c =>
    rw [hp, exceptBind_ok] at h
    cases hrn : get_roman_numeral c k with
    | error er =>
      rw [hrn, exceptBind_error] at h
      injection h with h2
      rw [← h2]
      exact Or.inr (get_roman_numeral_error_shape hrn)
    | ok r =>
      rw [hrn, exceptBind_ok] at h
      cases h

theorem analyzeOne_isOk_iff (k s : String) :
    isOkE (analyzeOne k s) = true ↔
      (parsedRootInNotes s = true ∧ k ∈ chromatic_notes) := by
  constructor
  · intro h
    cases hp : parse_chord s with
    | error e => simp [analyzeOne, hp, exceptBind_error, isOkE] at h
    | ok c =>
      cases hrn : get_roman_numeral c k with
      | error e => simp [analyzeOne, hp, hrn, exceptBind_ok, exceptBind_error, isOkE] at h
      | ok r =>
        have hmem := (get_roman_numeral_isOk_iff c k).mp (by rw [hrn]; rfl)
        refine ⟨?_, hmem.1⟩
        unfold parsedRootInNotes
        rw [hp]
        exact List.elem_iff.mpr hmem.2
  · rintro ⟨h1, hk⟩
    obtain ⟨c, i, hp, hi⟩ := parsedRootInNotes_spec h1
    have hroman : isOkE (get_roman_numeral c k) = true :=
      (get_roman_numeral_isOk_iff c k).mpr ⟨hk, mem_of_noteIndex_ok hi⟩
    cases hrn : get_roman_numeral c k with
    | error e => rw [hrn] at hroman; cases hroman
    | ok r => simp [analyzeOne, hp, hrn, exceptBind_ok, isOkE]

theorem analysisLoop_isOk_iff (k : String) :
    ∀ syms : List String, isOkE (analysisLoop k syms) = true ↔
      ∀ s ∈ syms, parsedRootInNotes s = true ∧ k ∈ chromatic_notes := by
  intro syms
  induction syms with
  | nil => simp [analysisLoop, isOkE]
  | cons s0 rest ih =>
    constructor
    · intro h
      cases h0 : analyzeOne k s0 with
      | error e0 => simp [analysisLoop, h0, exceptBind_error, isOkE] at h
      | ok e0 =>
        cases h1 : analysisLoop k rest with
        | error e1 => simp [analysisLoop, h0, h1, exceptBind_ok, exceptBind_error, isOkE] at h
        | ok tl =>
          intro s hs
          rcases List.mem_cons.mp hs with hs0 | hsr
          · rw [hs0]
            exact (analyzeOne_isOk_iff k s0).mp (by rw [h0]; rfl)
          · exact (ih.mp (by rw [h1]; rfl)) s hsr
    · intro h
      have h0 : isOkE (analyzeOne k s0) = true :=
        (analyzeOne_isOk_iff k s0).mpr (h s0 (List.mem_cons_self s0 rest))
      have h1 : isOkE (analysisLoop k rest) = true :=
        ih.mpr (fun s hs => h s (List.mem_cons_of_mem s0 hs))
      cases ha : analyzeOne k s0 with
      | error e0 => rw [ha] at h0; cases h0
      | ok e0 =>
        cases hb : analysisLoop k rest with
        | error e1 => rw [hb] at h1; cases h1
        | ok tl => simp [analysisLoop, ha, hb, exceptBind_ok, isOkE]

/-- C5 amended: `analyze` raises the parser's `InvalidChordSymbol` only
for an element that fails the chord grammar (and then carries that very
symbol); in general the call fails iff some element fails to parse or
has a root outside the sharp-based alphabet, or the list is non-empty
and the key is outside the alphabet (those latter failures are the
`list.index` error, not `InvalidChordSymbol`); and every failure is
atomic — a successful call returns exactly one record per input symbol,
an erroring call returns none. -/
theorem analyze_error_characterization :
    (∀ (syms : List String) (k s : String),
      analyze_chord_progression syms k = .error (.invalidChord s) →
      s ∈ syms ∧ parse_chord s = .error (.invalidChord s)) ∧
    (∀ (syms : List String) (k : String),
      isOkE (analyze_chord_progression syms k) = false ↔
        ((∃ s ∈ syms, parsedRootInNotes s = false) ∨
         (syms ≠ [] ∧ k ∉ chromatic_notes))) ∧
    (∀ (syms : List String) (k : String) (recs : List AnalysisEntry),
      analyze_chord_progression syms k = .ok recs → recs.length = syms.length) := by
  refine ⟨?_, ?_, ?_⟩
  · intro syms k
    induction syms with
    | nil => intro s h; cases h
    | cons s0 rest ih =>
      intro s h
      simp only [analyze_chord_progression, analysisLoop] at h
      cases h0 : analyzeOne k s0 with
      | error e0 =>
        rw [h0, exceptBind_error] at h
        injection h with h2
        rw [h2] at h0
        rcases analyzeOne_error_shape h0 with hp | ⟨x, hx⟩
        · have h3 := parse_chord_error_shape hp
          injection h3 with h4
          subst h4
          exact ⟨List.mem_cons_self _ _, hp⟩
        · cases hx
      | ok e0 =>
        rw [h0, exceptBind_ok] at h
        cases h1 : analysisLoop k rest with
        | error e1 =>
          rw [h1, exceptBind_error] at h
          injection h with h2
          rw [h2] at h1
          obtain ⟨hmem, hp⟩ := ih s h1
          exact ⟨List.mem_cons_of_mem s0 hmem, hp⟩
        | ok tl =>
          rw [h1, exceptBind_ok] at h
          cases h
  · intro syms k
    simp only [analyze_chord_progression]
    rw [Bool.eq_false_iff, Ne, analysisLoop_isOk_iff]
    constructor
    · intro h
      by_cases hk : k ∈ chromatic_notes
      · left
        by_contra hno
        push_neg at hno
        apply h
        intro s hs
        refine ⟨?_, hk⟩
        have := hno s hs
        cases hb : parsedRootInNotes s with
        | true => rfl
        | false => exact absurd hb this
      · right
        refine ⟨?_, hk⟩
        intro he
        rw [he] at h
        exact h (fun s hs => absurd hs (List.not_mem_nil s))
    · intro h hall
      rcases h with ⟨s, hs, hfalse⟩ | ⟨hne, hk⟩
      · have := (hall s hs).1
        rw [hfalse] at this
        cases this
      · obtain ⟨s, hs⟩ := List.exists_mem_of_ne_nil syms hne
        exact hk (hall s hs).2
  · intro syms k
    induction syms with
    | nil =>
      intro recs h
      injection h with h2
      rw [← h2]
      rfl
    | cons s0 rest ih =>
      intro recs h
      simp only [analyze_chord_progression, analysisLoop] at h
      cases h0 : analyzeOne k s0 with
      | error e0 => rw [h0, exceptBind_error] at h; cases h
      | ok e0 =>
        rw [h0, exceptBind_ok] at h
        cases h1 : analysisLoop k rest with
        | error e1 => rw [h1, exceptBind_error] at h; cases h
        | ok tl =>
          rw [h1, exceptBind_ok] at h
          injection h with h2
          rw [← h2]
          simp only [List.length_cons]
          rw [ih tl h1]

theorem analyze_error_characterization_witness :
    ("H7" ∈ ["H7"] ∧ parse_chord "H7" = .error (.invalidChord "H7")) ∧
    isOkE (analyze_chord_progression ["Db"] "C") = false ∧
    (∃ recs, analyze_chord_progression ["C", "G7"] "C" = .ok recs ∧ recs.length = 2) := by
  refine ⟨?_, ?_, ?_⟩
  · exact analyze_error_characterization.1 ["H7"] "C" "H7" rfl
  · exact (analyze_error_characterization.2.1 ["Db"] "C").mpr
      (Or.inl ⟨"Db", by decide, by decide⟩)
  · cases hr : analyze_chord_progression ["C", "G7"] "C" with
    | error e =>
      have hfalse : isOkE (analyze_chord_progression ["C", "G7"] "C") = false := by
        rw [hr]; rfl
      rcases (analyze_error_characterization.2.1 ["C", "G7"] "C").mp hfalse with
        ⟨s, hs, hf⟩ | ⟨_, hk⟩
      · fin_cases hs <;> exact absurd hf (by decide)
      · exact absurd (by decide : ("C" : String) ∈ chromatic_notes) hk
    | ok recs =>
      exact ⟨recs, rfl, analyze_error_characterization.2.2 ["C", "G7"] "C" recs hr⟩

theorem adjacentPairs_cons2 (a b : String) (r : List String) :
    adjacentPairs (a :: b :: r) = (a, b) :: adjacentPairs (b :: r) := rfl

theorem flagged_messages_cons2 (a b : String) (r : List String) :
    flagged_messages (a :: b :: r) =
      if pairFlagged a b then
        ("Movimento de fundamental muito amplo: " ++ a ++ " → " ++ b) ::
          flagged_messages (b :: r)
      else flagged_messages (b :: r) := by
  unfold flagged_messages
  rw [adjacentPairs_cons2, List.filter_cons]
  by_cases hf : pairFlagged a b
  · simp [hf]
  · simp [hf]

theorem pairFlagged_eq {a b : String} {ca cb : Chord} {ia ib : Nat}
    (hpa : parse_chord a = .ok ca) (hpb : parse_chord b = .ok cb)
    (hia : noteIndex ca.root = .ok ia) (hib : noteIndex cb.root = .ok ib) :
    pairFlagged a b = decide (((ib : Int) - (ia : Int)).natAbs > 6) := by
  simp [pairFlagged, hpa, hpb, findIdx_of_noteIndex_ok hia, findIdx_of_noteIndex_ok hib]

theorem vlLoop_spec : ∀ prog : List String,
    (∀ s ∈ prog, parsedRootInNotes s = true) →
    vlLoop prog = .ok (flagged_messages prog,
      List.replicate (flagged_messages prog).length
        "Considere usar inversão ou acorde de passagem") := by
  intro prog
  induction prog with
  | nil => intro _; rfl
  | cons a rest ih =>
    cases rest with
    | nil => intro _; rfl
    | cons b rest2 =>
      intro hyp
      obtain ⟨ca, ia, hpa, hia⟩ := parsedRootInNotes_spec (hyp a (by simp))
      obtain ⟨cb, ib, hpb, hib⟩ := parsedRootInNotes_spec (hyp b (by simp))
      have htail := ih (fun s hs => hyp s (List.mem_cons_of_mem a hs))
      have hflag := pairFlagged_eq hpa hpb hia hib
      rw [flagged_messages_cons2]
      simp only [vlLoop, hpa, hpb, hia, hib, exceptBind_ok, htail]
      by_cases hf : ((ib : Int) - (ia : Int)).natAbs > 6
      · simp [hflag, hf, List.replicate_succ]
        rfl
      · simp [hflag, hf]
        rfl

/-- C6 amended: for progressions of parseable symbols whose roots are
all in the sharp-based alphabet, the checker returns a report that flags
an adjacent pair exactly when the raw absolute chromatic-index
difference of the two roots exceeds 6 (one issue message and one
suggestion per flagged pair, in order), and `is_valid` is true iff no
pair was flagged; a distance of exactly 6 is not flagged, so
`check(["C","F#"])` reports valid.  (Flat-spelled roots such as `"Gb"`
instead raise the alphabet-lookup error.) -/
theorem voice_leading_flags :
    (∀ prog : List String, (∀ s ∈ prog, parsedRootInNotes s = true) →
      validate_voice_leading prog = .ok {
        is_valid := (flagged_messages prog).length == 0,
        issues := flagged_messages prog,
        suggestions := List.replicate (flagged_messages prog).length
          "Considere usar inversão ou acorde de passagem" }) ∧
    validate_voice_leading ["C", "F#"] =
      .ok { is_valid := true, issues := [], suggestions := [] } := by
  constructor
  · intro prog hyp
    rw [validate_voice_leading]
    rw [vlLoop_spec prog hyp, exceptBind_ok]
    rfl
  · rfl

theorem voice_leading_flags_witness :
    validate_voice_leading ["C", "G#"] = .ok {
      is_valid := (flagged_messages ["C", "G#"]).length == 0,
      issues := flagged_messages ["C", "G#"],
      suggestions := List.replicate (flagged_messages ["C", "G#"]).length
        "Considere usar inversão ou acorde de passagem" } :=
  voice_leading_flags.1 ["C", "G#"] (by decide)
